import Mathlib

/-!
# Verification of the hadi_LZ_package C backend

Shallow embedding of the complexity kernels of the package's C backend
(`lz_core.c`, `lz_exhaustive.c`, `online_suffix.c`, `lz_suffix.c`) together
with theorems settling the stated properties of those kernels.

Symbols are modelled as `Char` (the C code works on `char` buffers with
explicit lengths; byte values are arbitrary and the algorithms are
alphabet-agnostic).  `double` results are modelled as real numbers; `log2`
is `Real.logb 2`.  Heap allocation is assumed to succeed, so the C error
returns for `malloc` failure are not modelled; every other control path is.
-/

/-! ## Naive LZ76 kernel (`lz_core.c`, `lz76_complexity`)

The C loop keeps a buffer `parsed` of all committed phrases, the phrase
`current_word` being built, and `dictionary_size`.  For each input symbol it
appends the symbol to `current_word`, then scans
`parsed ++ current_word[0 .. len-2]` (that is, `parsed` plus the previous
`current_word`) for an occurrence of the full `current_word`; if absent the
phrase is committed.  -/

/-- Loop state of `lz76_complexity`: `parsed`, `current_word`,
`dictionary_size` from `lz_core.c`. -/
structure Lz76Acc where
  parsed : List Char
  current_word : List Char
  dictionary_size : ℕ
deriving DecidableEq, Repr

/-- One iteration of the `while (pos < length)` loop of `lz76_complexity`. -/
def lz76_step (acc : Lz76Acc) (c : Char) : Lz76Acc :=
  let cur := acc.current_word ++ [c]
  let hay := acc.parsed ++ acc.current_word
  if cur <:+: hay then
    { acc with current_word := cur }
  else
    { parsed := acc.parsed ++ cur, current_word := [],
      dictionary_size := acc.dictionary_size + 1 }

/-- The state after the whole parsing loop of `lz76_complexity`. -/
def lz76_parse (s : List Char) : Lz76Acc :=
  s.foldl lz76_step ⟨[], [], 0⟩

/-- The raw LZ76 phrase count: `dictionary_size` after the loop, plus one for
a non-empty residual `current_word` (the `if (current_len > 0)` increment). -/
def lz76_raw_count (s : List Char) : ℕ :=
  let a := lz76_parse s
  a.dictionary_size + (if a.current_word.length > 0 then 1 else 0)

/-- `lz76_complexity` from `lz_core.c`: returns `0.0` for an empty input and
`dictionary_size * log2(length)` otherwise. -/
noncomputable def lz76_complexity (s : List Char) : ℝ :=
  if s.length = 0 then 0
  else (lz76_raw_count s : ℝ) * Real.logb 2 (s.length : ℝ)

/-! ## Naive LZ78 kernel (`lz_core.c`, `lz78_complexity`)

The dictionary is an ordered list of committed phrases.  After appending the
next symbol to `current_word`, the code searches the dictionary for any entry
of which `current_word` is a prefix (`dict_word_len >= current_len` and the
first `current_len` bytes agree); if none exists, `current_word` is committed
as a new entry.  -/

/-- Loop state of `lz78_complexity`: the `dictionary` array and
`current_word`. -/
structure Lz78Acc where
  dictionary : List (List Char)
  current_word : List Char
deriving DecidableEq, Repr

/-- One iteration of the `while (pos < length)` loop of `lz78_complexity`. -/
def lz78_step (acc : Lz78Acc) (c : Char) : Lz78Acc :=
  let cur := acc.current_word ++ [c]
  if acc.dictionary.any (fun w => cur.isPrefixOf w) then
    { acc with current_word := cur }
  else
    { dictionary := acc.dictionary ++ [cur], current_word := [] }

/-- Raw LZ78 phrase count: `dict_size` after the loop plus one for a
non-empty residual `current_word`. -/
def lz78_raw_count (s : List Char) : ℕ :=
  let a := s.foldl lz78_step ⟨[], []⟩
  a.dictionary.length + (if a.current_word.length > 0 then 1 else 0)

/-- `lz78_complexity` from `lz_core.c`: `0.0` for an empty input, otherwise
the phrase count cast to `double`. -/
noncomputable def lz78_complexity (s : List Char) : ℝ :=
  if s.length = 0 then 0 else (lz78_raw_count s : ℝ)

/-! ## Block entropy (`lz_core.c`, `block_entropy`) -/

/-- The `num_blocks = length - dimension + 1` windows of width `d` scanned by
`block_entropy` (the loop `for i in [0, length - dimension]`). -/
def block_windows (s : List Char) (d : ℕ) : List (List Char) :=
  (List.range (s.length - d + 1)).map (fun i => (s.drop i).take d)

/-- `block_entropy` from `lz_core.c`: `0.0` on the guard
`length == 0 || dimension == 0 || dimension > length`; otherwise
`-Σ p log2 p` over the distinct windows, where `p` is the occurrence count of
a window divided by the number of windows (the `SubseqCount` accumulation of
`find_or_add_subsequence`). -/
noncomputable def block_entropy (s : List Char) (d : ℕ) : ℝ :=
  if s.length = 0 ∨ d = 0 ∨ s.length < d then 0
  else
    -((block_windows s d).dedup.map (fun w =>
        let p : ℝ := ((block_windows s d).count w : ℝ) /
          ((s.length - d + 1 : ℕ) : ℝ)
        if 0 < p then p * Real.logb 2 p else 0)).sum

/-- `symmetric_lz78_complexity` from `lz_core.c`: mean of the kernel on the
input and on its reversal (guard: `0.0` for empty input). -/
noncomputable def symmetric_lz78_complexity (s : List Char) : ℝ :=
  if s.length = 0 then 0
  else (lz78_complexity s + lz78_complexity s.reverse) / 2

/-- `symmetric_block_entropy` from `lz_core.c`: mean of `block_entropy` on
the input and on its reversal, behind the same validity guard. -/
noncomputable def symmetric_block_entropy (s : List Char) (d : ℕ) : ℝ :=
  if s.length = 0 ∨ d = 0 ∨ s.length < d then 0
  else (block_entropy s d + block_entropy s.reverse d) / 2

/-- `conditional_lz76_complexity` from `lz_core.c`: `0.0` when `X` is empty
or when `Y` is empty, otherwise `lz76_complexity(X ++ Y) - lz76_complexity(X)`
(the code concatenates with `concat_strings`). -/
noncomputable def conditional_lz76_complexity (x y : List Char) : ℝ :=
  if x.length = 0 then 0
  else if y.length = 0 then 0
  else lz76_complexity (x ++ y) - lz76_complexity x

/-! ## Theorems about the naive kernels -/

/-- Helper: `log2 4 = 2`. -/
lemma logb_two_four : Real.logb 2 4 = 2 := by
  rw [show (4 : ℝ) = 2 ^ (2 : ℕ) by norm_num, Real.logb_pow,
    Real.logb_self_eq_one (by norm_num)]
  norm_num

/-- C10: for every single-symbol input, the parse has exactly one phrase but
`lz76_complexity` returns `1 * log2 1 = 0`, the same value as for the empty
input, so at the public interface a length-1 sequence is indistinguishable
from the empty one for the naive LZ76 kernel. -/
theorem C10_single_symbol_is_zero (c : Char) :
    lz76_raw_count [c] = 1 ∧ lz76_complexity [c] = 0 ∧
    lz76_complexity [] = 0 := by
  have hni : ¬([c] <:+: ([] : List Char)) := by
    intro h
    simpa using h.length_le
  have hraw : lz76_raw_count [c] = 1 := by
    simp [lz76_raw_count, lz76_parse, lz76_step, hni]
  refine ⟨hraw, ?_, by simp [lz76_complexity]⟩
  simp [lz76_complexity, hraw, Real.logb_one]

/-- C3 counterexample: `lz78_complexity("abababab", 8)` is not `4` as the
spec claims. -/
theorem C3_counterexample :
    lz78_complexity "abababab".toList ≠ 4 := by
  have h : lz78_raw_count "abababab".toList = 5 := by decide
  unfold lz78_complexity
  rw [if_neg (by decide), h]
  norm_num

/-- C3 amended: `lz78_complexity("abababab", 8)` returns `5`: the committed
phrases are `a`, `b`, `ab`, `aba` (after `a` is committed, the lone `b` is
not a prefix of any entry and is committed as well), and the trailing `b`
leaves `current_word` non-empty, so the residual adds one: 4 + 1 = 5. -/
theorem C3_amended_value :
    lz78_raw_count "abababab".toList = 5 ∧
    lz78_complexity "abababab".toList = 5 := by
  have h : lz78_raw_count "abababab".toList = 5 := by decide
  refine ⟨h, ?_⟩
  unfold lz78_complexity
  rw [if_neg (by decide), h]
  norm_num

/-- C5: for non-empty input `lz76_complexity` returns the raw phrase count
times `log2(length)`; on `"aababcabcd"` the parse is `a|ab|abc|abcd` with 4
phrases, so the return is `4 * log2 10`; the return is `0` for empty
input. -/
theorem C5_lz76_normalized (s : List Char) (hs : s ≠ []) :
    lz76_complexity s = (lz76_raw_count s : ℝ) * Real.logb 2 (s.length : ℝ) ∧
    lz76_raw_count "aababcabcd".toList = 4 ∧
    lz76_complexity "aababcabcd".toList = 4 * Real.logb 2 10 ∧
    lz76_complexity [] = 0 := by
  have h4 : lz76_raw_count "aababcabcd".toList = 4 := by decide
  refine ⟨?_, h4, ?_, by simp [lz76_complexity]⟩
  · unfold lz76_complexity
    rw [if_neg (by simpa using hs)]
  · unfold lz76_complexity
    rw [if_neg (by decide), h4, show ("aababcabcd".toList.length : ℝ) = 10 by norm_num]
    norm_num

/-- Witness for C5 at `s = "a"`. -/
theorem C5_lz76_normalized_witness :
    ("a".toList ≠ []) ∧
    (lz76_complexity "a".toList =
        (lz76_raw_count "a".toList : ℝ) * Real.logb 2 ("a".toList.length : ℝ) ∧
      lz76_raw_count "aababcabcd".toList = 4 ∧
      lz76_complexity "aababcabcd".toList = 4 * Real.logb 2 10 ∧
      lz76_complexity [] = 0) :=
  ⟨by decide, C5_lz76_normalized "a".toList (by decide)⟩

/-- C7: the symmetric LZ78 and symmetric block-entropy kernels are invariant
under reversal of the input, because each is the arithmetic mean of the
kernel on the input and on its reversal (and the validity guards depend only
on the length). -/
theorem C7_symmetric_reversal_invariant (s : List Char) (d : ℕ) :
    symmetric_lz78_complexity s = symmetric_lz78_complexity s.reverse ∧
    symmetric_block_entropy s d = symmetric_block_entropy s.reverse d := by
  constructor
  · unfold symmetric_lz78_complexity
    rw [List.length_reverse, List.reverse_reverse]
    split_ifs <;> ring
  · unfold symmetric_block_entropy
    rw [List.length_reverse, List.reverse_reverse]
    split_ifs <;> ring

/-- C8: for non-empty `X` and `Y`, `conditional_lz76_complexity` is
`lz76_complexity(X ++ Y) - lz76_complexity(X)`; it returns `0` when `Y` is
empty and `0` when `X` is empty; and on `X = "ab"`, `Y = "cd"` it returns
`4·log2 4 - 2·log2 2 = 6`. -/
theorem C8_conditional_lz76 (X Y : List Char) (hx : X ≠ []) (hy : Y ≠ []) :
    conditional_lz76_complexity X Y =
        lz76_complexity (X ++ Y) - lz76_complexity X ∧
    conditional_lz76_complexity X [] = 0 ∧
    conditional_lz76_complexity [] Y = 0 ∧
    conditional_lz76_complexity "ab".toList "cd".toList = 6 := by
  refine ⟨?_, ?_, by simp [conditional_lz76_complexity], ?_⟩
  · unfold conditional_lz76_complexity
    rw [if_neg (by simpa using hx), if_neg (by simpa using hy)]
  · simp [conditional_lz76_complexity]
  · have hxy : lz76_raw_count ("ab".toList ++ "cd".toList) = 4 := by decide
    have hx2 : lz76_raw_count "ab".toList = 2 := by decide
    unfold conditional_lz76_complexity lz76_complexity
    rw [if_neg (by decide), if_neg (by decide), if_neg (by decide),
      if_neg (by decide), hxy, hx2]
    rw [show (("ab".toList ++ "cd".toList).length : ℝ) = 4 by norm_num,
      show (("ab".toList).length : ℝ) = 2 by norm_num]
    rw [logb_two_four, Real.logb_self_eq_one (by norm_num)]
    norm_num

/-- Witness for C8 at `X = "ab"`, `Y = "cd"`. -/
theorem C8_conditional_lz76_witness :
    ("ab".toList ≠ []) ∧ ("cd".toList ≠ []) ∧
    (conditional_lz76_complexity "ab".toList "cd".toList =
        lz76_complexity ("ab".toList ++ "cd".toList) -
          lz76_complexity "ab".toList ∧
      conditional_lz76_complexity "ab".toList [] = 0 ∧
      conditional_lz76_complexity [] "cd".toList = 0 ∧
      conditional_lz76_complexity "ab".toList "cd".toList = 6) :=
  ⟨by decide, by decide, C8_conditional_lz76 "ab".toList "cd".toList (by decide) (by decide)⟩

/-! ## Incremental LZ76 state (`lz_exhaustive.c`)

`LZState` carries `parsed_text`, `current_word`, `dictionary_size` and the
buffer bound `max_len`.  `advance_lz_state_in_place` appends one symbol to
`current_word`, searches `parsed_text ++ current_word[0 .. len-2]` for the
full `current_word` (the `strstr` call, guarded by
`parsed_len + cw_prefix_len >= current_word_len`), and commits the phrase if
absent.  The two `fprintf`+`return false` buffer-overflow branches are
modelled as `none`; allocation failure is not modelled. -/

/-- `LZState` from `lz_exhaustive.c` (buffer contents and logical lengths
are represented by the lists; capacities are implicit). -/
structure LZState where
  parsed_text : List Char
  current_word : List Char
  dictionary_size : ℕ
  max_len : ℕ
deriving DecidableEq, Repr

/-- `lz_state_init(state, L_max_len)`: empty buffers, zero dictionary. -/
def lz_state_init (L : ℕ) : LZState :=
  { parsed_text := [], current_word := [], dictionary_size := 0, max_len := L }

/-- `lz_state_copy(dest, src)`: a deep copy of all fields. -/
def lz_state_copy (s : LZState) : LZState :=
  { parsed_text := s.parsed_text, current_word := s.current_word,
    dictionary_size := s.dictionary_size, max_len := s.max_len }

/-- `advance_lz_state_in_place(s, c)`; `none` models the two buffer-overflow
error branches (`current_word_len >= max_len` before appending, and
`parsed_text_len + current_word_len > max_len` when committing). -/
def advance_lz_state_in_place (s : LZState) (c : Char) : Option LZState :=
  if s.max_len ≤ s.current_word.length then none
  else
    let cur := s.current_word ++ [c]
    let search_domain := s.parsed_text ++ s.current_word
    if s.current_word.length + 1 ≤ s.parsed_text.length + s.current_word.length ∧
        cur <:+: search_domain then
      some { s with current_word := cur }
    else if s.max_len < s.parsed_text.length + cur.length then none
    else
      some { s with
        parsed_text := s.parsed_text ++ cur
        current_word := []
        dictionary_size := s.dictionary_size + 1 }

/-- The leaf-level count of `generate_recursive` /
`generate_recursive_for_distribution_task`: `dictionary_size`, plus one if
`current_word` is non-empty. -/
def lz_final_count (s : LZState) : ℕ :=
  s.dictionary_size + (if s.current_word.length > 0 then 1 else 0)

/-- `compute_state_for_prefix`: advance a fresh or given state over a list of
symbols, aborting (`none`) if any advance fails. -/
def run_advances (s : LZState) : List Char → Option LZState
  | [] => some s
  | c :: cs =>
    match advance_lz_state_in_place s c with
    | some s' => run_advances s' cs
    | none => none

/-- `generate_recursive` from `lz_exhaustive.c`, with the recursion depth
`L - k` as the first argument: at depth 0 record the final count, otherwise
copy-and-advance with `'0'` then with `'1'` and concatenate the results in
that order (which is exactly MSB-first index order of the output array).  A
failed advance aborts the branch, producing no entries, as the C code
returns without writing. -/
def generate_recursive : ℕ → LZState → List ℕ
  | 0, s => [lz_final_count s]
  | d + 1, s =>
    (match advance_lz_state_in_place (lz_state_copy s) '0' with
      | some s0 => generate_recursive d s0
      | none => []) ++
    (match advance_lz_state_in_place (lz_state_copy s) '1' with
      | some s1 => generate_recursive d s1
      | none => [])

/-- `lz76_exhaustive_generate(L, out)`: guard `1 <= L <= 24`, then run the
recursion from a fresh state; entry `i` of the list is the phrase count of
the `L`-bit string with MSB-first integer value `i`.  `none` models the
early return on an invalid `L`. -/
def lz76_exhaustive_generate (L : ℕ) : Option (List ℕ) :=
  if 1 ≤ L ∧ L ≤ 24 then some (generate_recursive L (lz_state_init L))
  else none

/-- Increment slot `i` of a histogram (`private_counts[i]++`). -/
def list_incr : List ℕ → ℕ → List ℕ
  | [], _ => []
  | x :: xs, 0 => (x + 1) :: xs
  | x :: xs, i + 1 => x :: list_incr xs i

/-- The binning of `generate_recursive_for_distribution_task`: counts below
`max_complexity_to_track - 1` go to their own bin, everything else into the
last bin. -/
def bin_index (cmax cnt : ℕ) : ℕ :=
  if cnt < cmax - 1 then cnt else cmax - 1

/-- `generate_recursive_for_distribution_task`: explore the depth-`d`
subtree below state `s`, bumping the histogram at each leaf ('0' branch
first, then '1'); a failed copy/advance aborts the branch leaving the
histogram as is, as in the C code. -/
def distribution_task (cmax : ℕ) : ℕ → LZState → List ℕ → List ℕ
  | 0, s, counts => list_incr counts (bin_index cmax (lz_final_count s))
  | d + 1, s, counts =>
    let c0 := match advance_lz_state_in_place (lz_state_copy s) '0' with
      | some s0 => distribution_task cmax d s0 counts
      | none => counts
    match advance_lz_state_in_place (lz_state_copy s) '1' with
    | some s1 => distribution_task cmax d s1 c0
    | none => c0

/-- The `2^d` binary prefix strings in MSB-first index order, as enumerated
by the prefix loop of `lz76_exhaustive_distribution`
(`prefix_string_buffer[bit] = (i >> (split_depth-1-bit)) & 1`). -/
def all_bit_strings : ℕ → List (List Char)
  | 0 => [[]]
  | d + 1 =>
    (all_bit_strings d).map (fun p => '0' :: p) ++
    (all_bit_strings d).map (fun p => '1' :: p)

/-- One task of the parallel loop of `lz76_exhaustive_distribution`: run
`compute_state_for_prefix` on the prefix, then explore its depth-`L - d`
subtree (the code derives the split depth `d` from the thread count and
clamps it to `[0, L]`; the reduction over tasks is deterministic in the
histogram, so the task order is the prefix index order). -/
def distribution_prefix_task (L cmax d : ℕ) (counts : List ℕ)
    (pre : List Char) : List ℕ :=
  match run_advances (lz_state_init L) pre with
  | some s => distribution_task cmax (L - d) s counts
  | none => counts

/-- The histogram produced by `lz76_exhaustive_distribution(L, counts, cmax,
threads)` with split depth `d`: the guard `L <= 0 || L > 30` /
`max_complexity_to_track <= 0` early-returns (`none`); otherwise the fold of
the `2^d` prefix tasks, in index order, over the zeroed histogram. -/
def lz76_exhaustive_distribution (L cmax d : ℕ) : Option (List ℕ) :=
  if 1 ≤ L ∧ L ≤ 30 ∧ 1 ≤ cmax then
    some ((all_bit_strings d).foldl (distribution_prefix_task L cmax d)
      (List.replicate cmax 0))
  else none

/-! ## Lemmas about the incremental LZ76 state -/

/-- `lz_state_copy` reproduces the source state exactly. -/
lemma lz_state_copy_eq (s : LZState) : lz_state_copy s = s := rfl

/-- As long as `parsed_text_len + current_word_len < max_len`, an advance
takes neither overflow branch, succeeds, and grows the total buffered length
by exactly one symbol. -/
lemma advance_lz_state_ok (s : LZState) (c : Char)
    (h : s.parsed_text.length + s.current_word.length < s.max_len) :
    ∃ s', advance_lz_state_in_place s c = some s' ∧
      s'.parsed_text.length + s'.current_word.length =
        s.parsed_text.length + s.current_word.length + 1 ∧
      s'.max_len = s.max_len := by
  have h1 : ¬s.max_len ≤ s.current_word.length := by omega
  by_cases hin : s.current_word.length + 1 ≤
      s.parsed_text.length + s.current_word.length ∧
      (s.current_word ++ [c]) <:+: (s.parsed_text ++ s.current_word)
  · refine ⟨{ s with current_word := s.current_word ++ [c] }, ?_,
      by simp only [List.length_append, List.length_singleton]; omega, rfl⟩
    simp only [advance_lz_state_in_place, if_neg h1, if_pos hin]
  · have h2 : ¬s.max_len <
        s.parsed_text.length + (s.current_word ++ [c]).length := by
      simp only [List.length_append, List.length_singleton]
      omega
    refine ⟨{ s with
        parsed_text := s.parsed_text ++ (s.current_word ++ [c])
        current_word := []
        dictionary_size := s.dictionary_size + 1 }, ?_,
      by simp only [List.length_append, List.length_singleton, List.length_nil]; omega, rfl⟩
    simp only [advance_lz_state_in_place, if_neg h1, if_neg hin, if_neg h2]

/-- Running a list of advances from a state with enough buffer room never
hits an overflow branch, and the final buffered length is the initial one
plus the number of symbols processed. -/
lemma run_advances_ok (cs : List Char) (s : LZState)
    (h : s.parsed_text.length + s.current_word.length + cs.length ≤ s.max_len) :
    ∃ s', run_advances s cs = some s' ∧
      s'.parsed_text.length + s'.current_word.length =
        s.parsed_text.length + s.current_word.length + cs.length ∧
      s'.max_len = s.max_len := by
  induction cs generalizing s with
  | nil => exact ⟨s, rfl, by simp, rfl⟩
  | cons c cs ih =>
    obtain ⟨s1, h1, hsum1, hmax1⟩ := advance_lz_state_ok s c (by
      simp only [List.length_cons] at h
      omega)
    obtain ⟨s2, h2, hsum2, hmax2⟩ := ih s1 (by
      simp only [List.length_cons] at h
      omega)
    refine ⟨s2, ?_, ?_, by omega⟩
    · simp only [run_advances, h1, h2]
    · simp only [List.length_cons]
      omega

/-- C9: for every `LZState` initialised by `lz_state_init` with bound `L`
and every sequence of at most `L` symbols, after each step (each prefix of
the sequence) the invariant `parsed_text_len + current_word_len = number of
symbols processed` holds; consequently neither buffer-overflow error branch
of `advance_lz_state_in_place` is reachable and every call returns `true`
(`some`).  Interleaving `lz_state_copy` changes nothing since the copy
reproduces the state. -/
theorem C9_advance_never_overflows (L : ℕ) (syms pre : List Char)
    (s : LZState) (h : syms.length ≤ L) (hpre : pre <+: syms) :
    lz_state_copy s = s ∧
    ∃ st, run_advances (lz_state_init L) pre = some st ∧
      st.parsed_text.length + st.current_word.length = pre.length := by
  refine ⟨rfl, ?_⟩
  obtain ⟨st, hrun, hsum, -⟩ := run_advances_ok pre (lz_state_init L) (by
    have hle := hpre.length_le
    simp only [lz_state_init, List.length_nil]
    omega)
  refine ⟨st, hrun, ?_⟩
  simpa only [lz_state_init, List.length_nil, Nat.zero_add] using hsum

/-- Witness for C9 at `L = 3`, `syms = "010"`, `pre = "01"`,
`s = lz_state_init 3`. -/
theorem C9_advance_never_overflows_witness :
    ("010".toList.length ≤ 3) ∧ ("01".toList <+: "010".toList) ∧
    (lz_state_copy (lz_state_init 3) = lz_state_init 3 ∧
      ∃ st, run_advances (lz_state_init 3) "01".toList = some st ∧
        st.parsed_text.length + st.current_word.length =
          "01".toList.length) :=
  ⟨by decide, by decide,
    C9_advance_never_overflows 3 "010".toList "01".toList (lz_state_init 3)
      (by decide) (by decide)⟩

/-- C2 counterexample: `lz76_exhaustive_generate(3, out)` does not produce
the per-string counts `2, 3, 3, 3, 3, 3, 3, 2` stated by the spec. -/
theorem C2_counterexample :
    lz76_exhaustive_generate 3 ≠ some [2, 3, 3, 3, 3, 3, 3, 2] := by
  decide

/-- C2 amended: `lz76_exhaustive_generate(3, out)` writes, at indices 0
through 7 (strings `000, 001, ..., 111`, MSB first), the raw phrase counts
`2, 2, 3, 3, 3, 3, 2, 2` (for example `001` parses as `0 | 01` with an
empty residual, giving 2, not 3). -/
theorem C2_amended_counts :
    lz76_exhaustive_generate 3 = some [2, 2, 3, 3, 3, 3, 2, 2] := by
  decide

/-! ## Lemmas for the exhaustive distribution -/

/-- Incrementing a valid slot adds one to the histogram total and keeps its
length. -/
lemma list_incr_sum (l : List ℕ) (i : ℕ) (h : i < l.length) :
    (list_incr l i).sum = l.sum + 1 ∧ (list_incr l i).length = l.length := by
  induction l generalizing i with
  | nil => simp at h
  | cons x xs ih =>
    cases i with
    | zero => simp [list_incr]; omega
    | succ j =>
      obtain ⟨hs, hl⟩ := ih j (by simpa using h)
      simp [list_incr, hs, hl]
      omega

/-- The bin chosen at a leaf is always inside the histogram. -/
lemma bin_index_lt (cmax cnt : ℕ) (h : 1 ≤ cmax) : bin_index cmax cnt < cmax := by
  unfold bin_index
  split_ifs <;> omega

/-- A depth-`d` distribution subtree rooted at a state with enough buffer
room counts exactly its `2^d` leaves into the histogram. -/
lemma distribution_task_sum (cmax : ℕ) (hc : 1 ≤ cmax) :
    ∀ (d : ℕ) (s : LZState) (counts : List ℕ),
      s.parsed_text.length + s.current_word.length + d ≤ s.max_len →
      counts.length = cmax →
      (distribution_task cmax d s counts).sum = counts.sum + 2 ^ d ∧
      (distribution_task cmax d s counts).length = cmax := by
  intro d
  induction d with
  | zero =>
    intro s counts _ hl
    have := list_incr_sum counts (bin_index cmax (lz_final_count s))
      (by rw [hl]; exact bin_index_lt cmax _ hc)
    simpa [distribution_task, hl] using this
  | succ d ih =>
    intro s counts hinv hl
    obtain ⟨s0, h0, hsum0, hmax0⟩ := advance_lz_state_ok s '0' (by omega)
    obtain ⟨s1, h1, hsum1, hmax1⟩ := advance_lz_state_ok s '1' (by omega)
    obtain ⟨hs0, hl0⟩ := ih s0 counts (by omega) hl
    obtain ⟨hs1, hl1⟩ := ih s1 (distribution_task cmax d s0 counts)
      (by omega) hl0
    constructor
    · simp only [distribution_task, lz_state_copy_eq, h0, h1, hs1, hs0]
      rw [pow_succ]
      omega
    · simp only [distribution_task, lz_state_copy_eq, h0, h1, hl1]

/-- Every entry of `all_bit_strings d` has length `d`. -/
lemma all_bit_strings_len (d : ℕ) :
    ∀ p ∈ all_bit_strings d, p.length = d := by
  induction d with
  | zero => simp [all_bit_strings]
  | succ d ih =>
    intro p hp
    simp only [all_bit_strings, List.mem_append, List.mem_map] at hp
    rcases hp with ⟨q, hq, rfl⟩ | ⟨q, hq, rfl⟩ <;> simp [ih q hq]

/-- There are `2^d` prefixes at split depth `d`. -/
lemma all_bit_strings_count (d : ℕ) :
    (all_bit_strings d).length = 2 ^ d := by
  induction d with
  | zero => simp [all_bit_strings]
  | succ d ih => simp [all_bit_strings, ih, pow_succ]; omega

/-- One prefix task adds exactly `2^(L-d)` to the histogram total. -/
lemma distribution_prefix_task_sum (L cmax d : ℕ) (hd : d ≤ L)
    (hc : 1 ≤ cmax) (counts : List ℕ) (pre : List Char)
    (hp : pre.length = d) (hl : counts.length = cmax) :
    (distribution_prefix_task L cmax d counts pre).sum
        = counts.sum + 2 ^ (L - d) ∧
    (distribution_prefix_task L cmax d counts pre).length = cmax := by
  obtain ⟨s, hrun, hsum, hmax⟩ := run_advances_ok pre (lz_state_init L) (by
    simp only [lz_state_init, List.length_nil]
    omega)
  have := distribution_task_sum cmax hc (L - d) s counts (by
    simp only [lz_state_init, List.length_nil, Nat.zero_add] at hsum hmax
    omega) hl
  simpa only [distribution_prefix_task, hrun] using this

/-- Folding the prefix tasks over a histogram adds `2^(L-d)` per prefix. -/
lemma distribution_fold_sum (L cmax d : ℕ) (hd : d ≤ L) (hc : 1 ≤ cmax) :
    ∀ (ps : List (List Char)) (counts : List ℕ),
      (∀ p ∈ ps, p.length = d) → counts.length = cmax →
      ((ps.foldl (distribution_prefix_task L cmax d) counts).sum
          = counts.sum + ps.length * 2 ^ (L - d) ∧
        (ps.foldl (distribution_prefix_task L cmax d) counts).length = cmax) := by
  intro ps
  induction ps with
  | nil => intro counts _ hl; simp [hl]
  | cons p ps ih =>
    intro counts hps hl
    obtain ⟨hs, hlen⟩ := distribution_prefix_task_sum L cmax d hd hc counts p
      (hps p (by simp)) hl
    obtain ⟨hs2, hl2⟩ := ih (distribution_prefix_task L cmax d counts p)
      (fun q hq => hps q (by simp [hq])) hlen
    constructor
    · simp only [List.foldl_cons, hs2, hs, List.length_cons]
      ring
    · simpa only [List.foldl_cons] using hl2

/-- C6: for `1 ≤ L ≤ 30`, `Cmax > 0` and any split depth `d ≤ L` (as derived
from the worker count), `lz76_exhaustive_distribution` fills a histogram of
`Cmax` bins whose entries sum to `2^L`: each of the `2^L` binary strings of
length `L` lands in exactly one bin, with counts `≥ Cmax - 1` collapsed into
bin `Cmax - 1`. -/
theorem C6_distribution_sums_to_pow (L cmax d : ℕ)
    (h1 : 1 ≤ L) (h2 : L ≤ 30) (h3 : 1 ≤ cmax) (hd : d ≤ L) :
    ∃ H, lz76_exhaustive_distribution L cmax d = some H ∧
      H.sum = 2 ^ L ∧ H.length = cmax := by
  refine ⟨(all_bit_strings d).foldl (distribution_prefix_task L cmax d)
    (List.replicate cmax 0), ?_, ?_, ?_⟩
  · unfold lz76_exhaustive_distribution
    rw [if_pos ⟨h1, h2, h3⟩]
  · obtain ⟨hs, -⟩ := distribution_fold_sum L cmax d hd h3
      (all_bit_strings d) (List.replicate cmax 0) (all_bit_strings_len d)
      (by simp)
    rw [hs, all_bit_strings_count]
    simp only [List.sum_replicate, smul_eq_mul, Nat.mul_zero, Nat.zero_add]
    rw [← pow_add]
    congr 1
    omega
  · exact (distribution_fold_sum L cmax d hd h3 (all_bit_strings d)
      (List.replicate cmax 0) (all_bit_strings_len d) (by simp)).2

/-- Witness for C6 at `L = 3`, `Cmax = 5`, split depth `d = 2` (4 workers). -/
theorem C6_distribution_sums_to_pow_witness :
    (1 ≤ 3) ∧ (3 ≤ 30) ∧ (1 ≤ 5) ∧ (2 ≤ 3) ∧
    (∃ H, lz76_exhaustive_distribution 3 5 2 = some H ∧
      H.sum = 2 ^ 3 ∧ H.length = 5) :=
  ⟨by decide, by decide, by decide, by decide,
    C6_distribution_sums_to_pow 3 5 2 (by decide) (by decide) (by decide)
      (by decide)⟩

/-! ## Online suffix tree (`online_suffix.c`)

Nodes and edges are malloc'd and mutated through pointers in the C code; the
embedding keeps them in arenas indexed by allocation order (`free`d edges
simply stay as stale, never-referenced entries).  Node 0 is the root.  A
`NULL` node pointer is `none`.  Every read of `text[i]` goes through
`text_get`; an out-of-bounds index — undefined behaviour in C — aborts the
whole computation with `none`, and so does dereferencing a `NULL` pointer
where the C code would crash. -/

/-- `EdgeC`: label interval `[start, end]` into the shared text;
`edge_end = none` is the `INF_END` sentinel of a leaf edge. -/
structure EdgeC where
  start : ℤ
  edge_end : Option ℤ
  dest : ℕ
deriving DecidableEq, Repr

/-- `NodeC`: children as the `ChildEntry` linked list (first character,
edge index) in insertion order, plus the suffix link. -/
structure NodeC where
  children_list : List (Char × ℕ)
  suffix_link : Option ℕ
deriving DecidableEq, Repr

/-- `SuffixTreeCState` from `online_suffix.h`: text buffer, node/edge
arenas, and the Ukkonen active point (`active_edge_char_index` is
initialised to `-1`). -/
structure SuffixTreeCState where
  text : List Char
  nodes : List NodeC
  edges : List EdgeC
  active_node : Option ℕ
  active_edge_char_index : ℤ
  active_length : ℕ
  remainder : ℕ
deriving DecidableEq, Repr

/-- Bounds-checked read of `text[i]`; `none` is an out-of-bounds access. -/
def text_get (t : List Char) (i : ℤ) : Option Char :=
  if i < 0 then none else t.get? i.toNat

/-- Update the element at an index of a list in place (used for the
pointer-mutation of a node in the arena). -/
def list_update {α : Type} : List α → ℕ → (α → α) → List α
  | [], _, _ => []
  | x :: xs, 0, f => f x :: xs
  | x :: xs, i + 1, f => x :: list_update xs i f

/-- `set_child_edge_c`'s list manipulation: replace the entry for the
character if present, otherwise append a new entry at the tail. -/
def upsert_child : List (Char × ℕ) → Char → ℕ → List (Char × ℕ)
  | [], c, e => [(c, e)]
  | (c', e') :: rest, c, e =>
    if c' = c then (c, e) :: rest else (c', e') :: upsert_child rest c e

/-- `find_child_edge_by_char_internal`: `NULL`-tolerant lookup of the child
edge keyed by a character. -/
def find_child_edge (st : SuffixTreeCState) (n : Option ℕ) (c : Char) :
    Option ℕ :=
  match n with
  | none => none
  | some idx =>
    match st.nodes.get? idx with
    | none => none
    | some nd => (nd.children_list.find? (fun p => p.1 == c)).map (·.2)

/-- `set_child_edge_c`: no-op on a `NULL` node, as in the C code. -/
def set_child_edge (st : SuffixTreeCState) (n : Option ℕ) (c : Char)
    (e : ℕ) : SuffixTreeCState :=
  match n with
  | none => st
  | some idx =>
    { st with nodes := list_update st.nodes idx (fun nd =>
        { nd with children_list := upsert_child nd.children_list c e }) }

/-- `last_new_internal_node->suffix_link = target` when the pointer is
set. -/
def wire_last (st : SuffixTreeCState) (last_new : Option ℕ)
    (target : Option ℕ) : SuffixTreeCState :=
  match last_new with
  | none => st
  | some n =>
    { st with nodes := list_update st.nodes n (fun nd =>
        { nd with suffix_link := target }) }

/-- `new_node_c`: push a node with no children and a `NULL` suffix link. -/
def new_node_c (st : SuffixTreeCState) : SuffixTreeCState × ℕ :=
  ({ st with nodes := st.nodes ++ [{ children_list := [], suffix_link := none }] },
    st.nodes.length)

/-- `new_edge_c`. -/
def new_edge_c (st : SuffixTreeCState) (start : ℤ) (e : Option ℤ)
    (dest : ℕ) : SuffixTreeCState × ℕ :=
  ({ st with edges := st.edges ++ [{ start := start, edge_end := e, dest := dest }] },
    st.edges.length)

/-- `api_edge_length_c`: resolve `INF_END` against the current global end;
`0` when `start` is past the resolved end. -/
def api_edge_length_c (e : EdgeC) (cge : ℤ) : ℤ :=
  let real_end := e.edge_end.getD cge
  if real_end < e.start then 0 else real_end - e.start + 1

/-- `create_suffix_tree_c`: empty text, a root whose suffix link points to
itself, active point at the root with `active_edge_char_index = -1`. -/
def create_suffix_tree_c : SuffixTreeCState :=
  { text := [], nodes := [{ children_list := [], suffix_link := some 0 }],
    edges := [], active_node := some 0, active_edge_char_index := -1,
    active_length := 0, remainder := 0 }

/-- The tail of one iteration of the `while (remainder > 0)` loop of
`add_char_c` (everything after the insert / split): `remainder--`, then the
suffix-link step.  At the root with `active_length > 0` the code sets
`active_edge_char_index = current_global_end - remainder - active_length + 1`
(both counters already decremented); otherwise it dereferences
`active_node->suffix_link`, which is the crash modelled by `none` if
`active_node` is `NULL`. -/
def after_insert (st : SuffixTreeCState) (cge : ℤ) :
    Option SuffixTreeCState :=
  let st1 := { st with remainder := st.remainder - 1 }
  if st1.active_node = some 0 ∧ 0 < st1.active_length then
    some { st1 with
      active_length := st1.active_length - 1
      active_edge_char_index :=
        cge - (st1.remainder : ℤ) - ((st1.active_length - 1 : ℕ) : ℤ) + 1 }
  else if st1.active_node = some 0 then some st1
  else
    match st1.active_node with
    | none => none
    | some n =>
      (st1.nodes.get? n).map (fun nd => { st1 with active_node := nd.suffix_link })

/-- One iteration of the `while (remainder > 0)` loop of `add_char_c`.
`Sum.inl` is the rule-3 `break`, `Sum.inr` continues the loop with the
updated `last_new_internal_node`, `none` is a fault (out-of-bounds `text`
read or `NULL` dereference). -/
def add_char_step (st : SuffixTreeCState) (ch : Char) (cge : ℤ)
    (last_new : Option ℕ) :
    Option (SuffixTreeCState ⊕ (SuffixTreeCState × Option ℕ)) :=
  match (if st.active_length = 0 then some ch
         else text_get st.text st.active_edge_char_index) with
  | none => none
  | some char_to_test =>
    match find_child_edge st st.active_node char_to_test with
    | none =>
      -- rule 2: new leaf edge from active_node, keyed by ch
      let p1 := new_node_c st
      let p2 := new_edge_c p1.1 cge none p1.2
      let st3 := set_child_edge p2.1 p2.1.active_node ch p2.2
      let st4 := wire_last st3 last_new st3.active_node
      (after_insert st4 cge).map (fun st5 => Sum.inr (st5, none))
    | some eIdx =>
      match st.edges.get? eIdx with
      | none => none
      | some e =>
        let elen := api_edge_length_c e cge
        if elen ≤ (st.active_length : ℤ) then
          -- walk-down: descend, do not touch remainder
          some (Sum.inr ({ st with
            active_node := some e.dest
            active_length := st.active_length - elen.toNat
            active_edge_char_index := st.active_edge_char_index + elen },
            last_new))
        else
          match text_get st.text (e.start + (st.active_length : ℤ)) with
          | none => none
          | some cnext =>
            if cnext = ch then
              -- rule 3: extend the implicit match and break the phase
              some (Sum.inl (wire_last
                { st with active_length := st.active_length + 1 }
                last_new st.active_node))
            else
              -- mismatch: split the edge
              let q1 := new_node_c st
              let q2 := new_edge_c q1.1 e.start
                (some (e.start + (st.active_length : ℤ) - 1)) q1.2
              match text_get q2.1.text e.start with
              | none => none
              | some firstc =>
                let s3 := set_child_edge q2.1 q2.1.active_node firstc q2.2
                let q4 := new_node_c s3
                let q5 := new_edge_c q4.1 cge none q4.2
                let s6 := set_child_edge q5.1 (some q1.2) ch q5.2
                let q7 := new_edge_c s6 (e.start + (st.active_length : ℤ))
                  e.edge_end e.dest
                let s8 := set_child_edge q7.1 (some q1.2) cnext q7.2
                -- free(active_edge_object): the stale arena entry is never
                -- referenced again
                let s9 := wire_last s8 last_new (some q1.2)
                (after_insert s9 cge).map (fun s10 => Sum.inr (s10, some q1.2))

/-- The `while (remainder > 0)` loop of `add_char_c`, fuelled. -/
def add_char_loop : ℕ → SuffixTreeCState → Char → ℤ → Option ℕ →
    Option SuffixTreeCState
  | 0, _, _, _, _ => none
  | fuel + 1, st, ch, cge, last_new =>
    if st.remainder = 0 then some st
    else
      match add_char_step st ch cge last_new with
      | none => none
      | some (Sum.inl stDone) => some stDone
      | some (Sum.inr (st', ln')) => add_char_loop fuel st' ch cge ln'

/-- `add_char_c`: append the character to the text, bump `remainder`, run
the phase loop. -/
def add_char_c (st : SuffixTreeCState) (ch : Char) : Option SuffixTreeCState :=
  let st1 := { st with text := st.text ++ [ch] }
  let cge : ℤ := (st1.text.length : ℤ) - 1
  let st2 := { st1 with remainder := st1.remainder + 1 }
  add_char_loop (2 * st2.text.length + st2.remainder + 8) st2 ch cge none

/-- Build a tree by feeding each character of a string to `add_char_c` on a
freshly created state. -/
def build_suffix_tree (cs : List Char) : Option SuffixTreeCState :=
  cs.foldlM add_char_c create_suffix_tree_c

/-- Read `len` consecutive characters of the text starting at `start` (the
edge-label comparison loop of `find_c` reads exactly these). -/
def read_label (t : List Char) : ℤ → ℕ → Option (List Char)
  | _, 0 => some []
  | start, n + 1 =>
    match text_get t start with
    | none => none
    | some c => (read_label t (start + 1) n).map (fun l => c :: l)

/-- The `while (idx < pattern_len)` loop of `find_c`: look up the child edge
keyed by the next pattern character, compare the pattern against the edge
label character by character (`true` if the pattern is exhausted on the
edge, `false` on mismatch), then continue from the edge's destination. -/
def find_walk : ℕ → SuffixTreeCState → ℕ → List Char → Option Bool
  | 0, _, _, _ => none
  | _, _, _, [] => some true
  | fuel + 1, st, node, c :: rest =>
    match find_child_edge st (some node) c with
    | none => some false
    | some eIdx =>
      match st.edges.get? eIdx with
      | none => none
      | some e =>
        let cge : ℤ := (st.text.length : ℤ) - 1
        let real_end := e.edge_end.getD cge
        let elen : ℕ := (real_end - e.start + 1).toNat
        match read_label st.text e.start elen with
        | none => none
        | some label =>
          let pat := c :: rest
          if pat.length ≤ elen then some (pat.isPrefixOf label)
          else if label.isPrefixOf pat then
            find_walk fuel st e.dest (pat.drop elen)
          else some false

/-- `find_c`: the empty pattern is found by convention; otherwise walk from
the root. -/
def find_c (st : SuffixTreeCState) (pattern : List Char) : Option Bool :=
  if pattern.length = 0 then some true
  else find_walk (st.text.length + pattern.length + 8) st 0 pattern

/-! ## LZ parser over the suffix tree (`lz_suffix.c`) -/

/-- `LZSuffixTreeCState` from `lz_suffix.h`: the base tree, the current
word (buffer plus length), the one-symbol delay
(`last_char_processed_by_lz` with its validity flag folded into `Option`),
the phrase count, and the LZ active point.  The char-0 sentinel of
`lz_active_edge_first_char` is likewise folded into `Option`. -/
structure LZSuffixTreeCState where
  base_tree : SuffixTreeCState
  current_word : List Char
  last_char_processed_by_lz : Option Char
  dictionary_size : ℕ
  lz_active_node : Option ℕ
  lz_active_edge_first_char : Option Char
  lz_active_length : ℕ
  lz_active_edge_text_start_idx : ℤ
deriving DecidableEq, Repr

/-- `create_lz_suffix_tree_c` / `internal_reset_lz_state`: fresh base tree,
empty word, LZ active point at the root. -/
def create_lz_suffix_tree_c : LZSuffixTreeCState :=
  { base_tree := create_suffix_tree_c, current_word := [],
    last_char_processed_by_lz := none, dictionary_size := 0,
    lz_active_node := some 0, lz_active_edge_first_char := none,
    lz_active_length := 0, lz_active_edge_text_start_idx := -1 }

/-- `is_match_in_base_tree_c`: try to extend the LZ active point by one
character inside the base tree, updating the active point on success.  The
"inconsistent LZ active point" branch resets to the root and reports no
match, as the C code does; the tail-recursive node transition is fuelled. -/
def is_match_in_base_tree_c : ℕ → LZSuffixTreeCState → Char →
    Option (LZSuffixTreeCState × Bool)
  | 0, _, _ => none
  | fuel + 1, lz, ch =>
    match lz.lz_active_node with
    | none => some (lz, false)
    | some _ =>
      if lz.lz_active_length = 0 then
        match find_child_edge lz.base_tree lz.lz_active_node ch with
        | none => some (lz, false)
        | some eIdx =>
          match lz.base_tree.edges.get? eIdx with
          | none => none
          | some e =>
            match text_get lz.base_tree.text e.start with
            | none => none
            | some c0 =>
              some ({ lz with
                lz_active_edge_first_char := some c0
                lz_active_edge_text_start_idx := e.start
                lz_active_length := 1 }, true)
      else
        match lz.lz_active_edge_first_char with
        | none => none
        | some fc =>
          match find_child_edge lz.base_tree lz.lz_active_node fc with
          | none =>
            some ({ lz with
              lz_active_node := some 0
              lz_active_length := 0
              lz_active_edge_first_char := none
              lz_active_edge_text_start_idx := -1 }, false)
          | some eIdx =>
            match lz.base_tree.edges.get? eIdx with
            | none => none
            | some e =>
              let elen := api_edge_length_c e
                ((lz.base_tree.text.length : ℤ) - 1)
              if (lz.lz_active_length : ℤ) < elen then
                match text_get lz.base_tree.text
                    (e.start + (lz.lz_active_length : ℤ)) with
                | none => none
                | some cnext =>
                  if cnext = ch then
                    some ({ lz with lz_active_length := lz.lz_active_length + 1 },
                      true)
                  else some (lz, false)
              else
                is_match_in_base_tree_c fuel
                  { lz with
                    lz_active_node := some e.dest
                    lz_active_length := 0
                    lz_active_edge_first_char := none
                    lz_active_edge_text_start_idx := -1 } ch

/-- `add_char_lz_c`: append to the current word, feed the previous character
(if any) into the base tree, then try to extend the match by the current
character; on failure a phrase is committed and the LZ active point and
current word are reset. -/
def add_char_lz_c (lz : LZSuffixTreeCState) (ch : Char) :
    Option LZSuffixTreeCState :=
  let lz1 := { lz with current_word := lz.current_word ++ [ch] }
  let prev := lz1.last_char_processed_by_lz
  let lz2 := { lz1 with last_char_processed_by_lz := some ch }
  (match prev with
    | some pc => (add_char_c lz2.base_tree pc).map
        (fun bt => { lz2 with base_tree := bt })
    | none => some lz2).bind (fun lz3 =>
      (is_match_in_base_tree_c (2 * lz3.base_tree.text.length + 8) lz3 ch).map
        (fun (r : LZSuffixTreeCState × Bool) =>
          if r.2 then r.1
          else { r.1 with
            dictionary_size := r.1.dictionary_size + 1
            lz_active_node := some 0
            lz_active_edge_first_char := none
            lz_active_length := 0
            lz_active_edge_text_start_idx := -1
            current_word := [] }))

/-- `get_lz_complexity_c`: `dictionary_size`, plus one if the current word
is non-empty. -/
def get_lz_complexity_c (lz : LZSuffixTreeCState) : ℕ :=
  lz.dictionary_size + (if lz.current_word.length > 0 then 1 else 0)

/-- Feed a whole sequence into a fresh (equivalently, freshly reset)
`LZSuffixTreeCState` via `add_char_lz_c` and read `get_lz_complexity_c`. -/
def lz_suffix_run (cs : List Char) : Option ℕ :=
  (cs.foldlM add_char_lz_c create_lz_suffix_tree_c).map get_lz_complexity_c

/-! ## Theorems about the suffix-tree path

Sanity anchors for the embedding first: on inputs whose construction stays
inside the text buffer the tree answers queries correctly and the two LZ76
paths agree. -/

/-- On `"aba"` (no fault occurs) the suffix-tree LZ76 path and the naive
kernel agree: both count 3 phrases. -/
lemma lz_suffix_run_aba :
    lz_suffix_run "aba".toList = some 3 ∧ lz76_raw_count "aba".toList = 3 := by
  decide

/-- On the tree built from `"ab"` (no fault occurs), `find_c` answers
substring queries correctly. -/
lemma find_c_ab :
    (build_suffix_tree "ab".toList).map
        (fun t => (find_c t "ab".toList, find_c t "b".toList,
          find_c t "ba".toList)) =
      some (some true, some true, some false) := by
  decide

/-- C4: the claim fails because `add_char_c` itself is broken: feeding
`'a', 'a', 'b'` into a fresh tree makes the third call read
`text[active_edge_char_index]` with `active_edge_char_index` still `-1`
(the index is never assigned when a phase ends in a rule-3 match entered at
`active_length = 0`), an out-of-bounds access — undefined behaviour — so the
tree, and hence `find_c`, is garbage-dependent on the substring
`"ab"` of the text `"aab"` (in a run that reads the adjacent byte as `'b'`
the query returns `false`). -/
theorem C4_add_char_c_oob_read :
    build_suffix_tree "aab".toList = none ∧
    "ab".toList <:+: "aab".toList := by
  constructor
  · decide
  · decide

/-- C1: the claim fails for `seq = "aaba"` (`|seq| = 4 > 1`): the fourth
`add_char_lz_c` pushes the pending `'b'` into the base tree, whose state
triggers the same out-of-bounds read of `text[-1]` as in `C4`, so the
suffix-tree path's phrase count is garbage-dependent instead of the raw
count `3 = lz76_complexity(seq, 4) / log2(4)` computed by the naive
kernel. -/
theorem C1_lz_suffix_path_oob_read :
    lz_suffix_run "aaba".toList = none ∧
    lz76_raw_count "aaba".toList = 3 := by
  constructor
  · decide
  · decide

/-- Witness for C10 at `c = 'a'`. -/
theorem C10_single_symbol_is_zero_witness :
    lz76_raw_count ['a'] = 1 ∧ lz76_complexity ['a'] = 0 ∧
    lz76_complexity [] = 0 :=
  C10_single_symbol_is_zero 'a'

/-- Witness for C7 at `s = "ab"`, `d = 1`. -/
theorem C7_symmetric_reversal_invariant_witness :
    symmetric_lz78_complexity "ab".toList =
        symmetric_lz78_complexity "ab".toList.reverse ∧
    symmetric_block_entropy "ab".toList 1 =
        symmetric_block_entropy "ab".toList.reverse 1 :=
  C7_symmetric_reversal_invariant "ab".toList 1
